import Mathlib

/-!
Verification of `src/utils/text.rs` from twitch-tui: four pure text-layout
helpers (cursor-column resolution, title-span composition, prefix matching,
first-line wrapping), shallowly embedded in Lean.

Modelling conventions:
* Rust strings are modelled as lists of characters (`Str := List Char`);
  `str::starts_with` becomes `List.isPrefixOf`.  For a candidate that has the
  search string as a prefix, the byte-length comparison `result.len() >
  search.len()` holds exactly when the character-count comparison does, so
  `List.length` faithfully replaces `str::len` in that position.
* A grapheme cluster of the buffer is abstracted to its byte length and its
  display width (segmentation and width themselves live in external crates);
  `grapheme_indices` becomes a cumulative-offset enumeration.
* `tui::text::Span` is modelled with an abstract style type carrying a
  `Default`-style distinguished element (`Inhabited`).
* `textwrap::core::Word` is abstracted to its text and its display width.
-/

/-- A Rust string slice, modelled as its character sequence. -/
abbrev Str := List Char

/-! ### Prefix matcher: `first_similarity` -/

/-- Embedding of `first_similarity` from `src/utils/text.rs`:
`possibilities.iter().filter(|s| s.starts_with(search)).collect().first()`
followed by `and_then(|result| if result.len() > search.len() { Some(..) } else { None })`. -/
def first_similarity (possibilities : List Str) (search : Str) : Option Str :=
  ((possibilities.filter fun s => search.isPrefixOf s).head?).bind
    fun result => if result.length > search.length then some result else none

/-- The prefix matcher as the spec words it: the first candidate that BOTH
starts with the search string AND is strictly longer than it.  Only used to
contrast with the source's `first_similarity`. -/
def firstSimilaritySpec (possibilities : List Str) (search : Str) : Option Str :=
  possibilities.find? fun s => search.isPrefixOf s && decide (search.length < s.length)

/-! ### First-line wrapper: `wrap_once` -/

/-- A `textwrap::core::Word`, abstracted to its text and its display width
(the only data `wrap_once` consults is `word.width()`). -/
structure Word where
  text : Str
  width : Nat
deriving DecidableEq, Repr

/-- Total display width of a word sequence. -/
def sumWidth (ws : List Word) : Nat := (ws.map Word.width).sum

/-- The loop of `wrap_once`: iterates over the remaining words carrying the
enumeration index `idx`, the slice start `start`, the accumulated `width` and
the emitted `lines`.  The Rust `break` jumps to the trailing
`lines.push(&words[start..])`, which is fused into the break arm and the
base case here. -/
def wrapOnceGo (words : List Word) (lineWidths : List Nat) (defaultLineWidth : Nat) :
    List Word → Nat → Nat → Nat → List (List Word) → List (List Word)
  | [], _, start, _, lines => lines ++ [words.drop start]
  | w :: rest, idx, start, width, lines =>
      let lineWidth := (lineWidths.get? lines.length).getD defaultLineWidth
      if width + w.width > lineWidth ∧ idx > start then
        (lines ++ [(words.drop start).take (idx - start)]) ++ [words.drop idx]
      else
        wrapOnceGo words lineWidths defaultLineWidth rest (idx + 1) start (width + w.width) lines

/-- Embedding of `wrap_once` from `src/utils/text.rs`.  Rust slices
`&words[a..b]` become `take`/`drop` of the input list. -/
def wrapOnce (words : List Word) (lineWidths : List Nat) : List (List Word) :=
  let defaultLineWidth := (lineWidths.getLast?).getD 0
  wrapOnceGo words lineWidths defaultLineWidth words 0 0 0 []

/-- The break-index scan of `wrap_once` in isolation: the first enumeration
index `idx > 0` at which the accumulated width plus the current word's width
exceeds `lineWidth`. -/
def firstBreak (lineWidth : Nat) : List Word → Nat → Nat → Option Nat
  | [], _, _ => none
  | w :: rest, idx, width =>
      if width + w.width > lineWidth ∧ idx > 0 then some idx
      else firstBreak lineWidth rest (idx + 1) (width + w.width)

/-- Break index of `wrap_once` on a whole word list. -/
def breakIdx (words : List Word) (lineWidth : Nat) : Option Nat :=
  firstBreak lineWidth words 0 0

/-- The single target width `wrap_once` ever consults: since no line is
emitted until the loop stops, `lines.len()` is `0` at every lookup, so the
width is `line_widths[0]`, falling back to the last width (which only
happens when the sequence is empty, yielding the `unwrap_or(0)` default). -/
def targetWidth (lineWidths : List Nat) : Nat :=
  (lineWidths.get? 0).getD ((lineWidths.getLast?).getD 0)

/-! ### Cursor position resolver: `get_cursor_position` -/

/-- A grapheme cluster of the buffer string, abstracted to its byte length
and its display width (`unicode_segmentation` / `unicode_width` are external
crates; a real cluster is a non-empty string, so `0 < byteLen` for buffers
that arise from segmentation). -/
structure Cluster where
  byteLen : Nat
  width : Nat
deriving DecidableEq, Repr

/-- `grapheme_indices`: pair every cluster with its starting byte offset,
offsets accumulating from `off`. -/
def graphemeIndicesFrom (off : Nat) : List Cluster → List (Nat × Cluster)
  | [] => []
  | c :: cs => (off, c) :: graphemeIndicesFrom (off + c.byteLen) cs

/-- Total byte length of a buffer (the `String::len` of the underlying text). -/
def totalBytes (buf : List Cluster) : Nat := (buf.map Cluster.byteLen).sum

/-- Total display width of a buffer. -/
def totalWidth (buf : List Cluster) : Nat := (buf.map Cluster.width).sum

/-- Embedding of `get_cursor_position` from `src/utils/text.rs`: the buffer
string is given by its grapheme decomposition `buf`, the cursor byte offset
by `pos`; `take_while(|(offset, _)| *offset != pos)` then sum of widths. -/
def get_cursor_position (buf : List Cluster) (pos : Nat) : Nat :=
  (((graphemeIndicesFrom 0 buf).takeWhile fun p => p.1 != pos).map fun p => p.2.width).sum

/-! ### Title span composer: `title_spans` -/

/-- A `tui::text::Span`: a content string plus a style.  The style type is
abstract; its `Inhabited` default stands for `Style::default()`. -/
structure Span (σ : Type) where
  content : Str
  style : σ
deriving DecidableEq, Repr

/-- `Span::raw`: content with the default style. -/
def Span.raw {σ : Type} [Inhabited σ] (s : Str) : Span σ := ⟨s, default⟩

/-- `Span::styled`. -/
def Span.styled {σ : Type} (s : Str) (st : σ) : Span σ := ⟨s, st⟩

/-- The `TitleStyle` enum of `src/utils/text.rs`. -/
inductive TitleStyle (σ : Type) where
  | Combined (title value : Str)
  | Single (value : Str)
  | Custom (span : Span σ)
deriving DecidableEq, Repr

/-- The ` [ ` / `[ ` opening fragment: `format!("{}[ ", if i == 0 { "" } else { " " })`. -/
def firstBracket {σ : Type} [Inhabited σ] (i : Nat) : Span σ :=
  Span.raw ((if i == 0 then [] else [' ']) ++ ['[', ' '])

/-- The three spans contributed by one `TitleStyle` item at enumeration
index `i` (one `complete.extend(..)` step of the loop body). -/
def titleSpansItem {σ : Type} [Inhabited σ] (style : σ) (i : Nat) :
    TitleStyle σ → List (Span σ)
  | TitleStyle.Combined title value =>
      [firstBracket i, Span.styled title style,
        Span.raw ([':', ' '] ++ value ++ [' ', ']'])]
  | TitleStyle.Single value =>
      [firstBracket i, Span.styled value style, Span.raw [' ', ']']]
  | TitleStyle.Custom span =>
      [firstBracket i, span, Span.raw [' ', ']']]

/-- The `for (i, item) in contents.iter().enumerate()` loop, carrying the
enumeration index. -/
def titleSpansGo {σ : Type} [Inhabited σ] (style : σ) : Nat → List (TitleStyle σ) → List (Span σ)
  | _, [] => []
  | i, item :: rest => titleSpansItem style i item ++ titleSpansGo style (i + 1) rest

/-- Embedding of `title_spans` from `src/utils/text.rs`. -/
def title_spans {σ : Type} [Inhabited σ] (contents : List (TitleStyle σ)) (style : σ) :
    List (Span σ) :=
  titleSpansGo style 0 contents

/-! ## Helper lemmas -/

/-- The head of a filtered list is the first element satisfying the predicate. -/
theorem head?_filter_eq_find? {α : Type} (p : α → Bool) (l : List α) :
    (l.filter p).head? = l.find? p := by
  induction l with
  | nil => rfl
  | cons a t ih => cases h : p a <;> simp [List.filter_cons, List.find?_cons, h, ih]

example : first_similarity [['N','o','p','e']] ['N','o'] = some ['N','o','p','e'] := by decide
example : first_similarity [['N','o'], ['N','o','p','e']] ['N','o'] = none := by decide
example : firstSimilaritySpec [['N','o'], ['N','o','p','e']] ['N','o'] = some ['N','o','p','e'] := by decide
example : first_similarity [[], ['a']] [] = none := by decide
example : wrapOnce [⟨['a'], 6⟩, ⟨['b'], 7⟩, ⟨['c'], 6⟩] [10]
    = [[⟨['a'], 6⟩], [⟨['b'], 7⟩, ⟨['c'], 6⟩]] := by decide
example : wrapOnce [⟨['a'], 9⟩, ⟨['b'], 8⟩] [20] = [[⟨['a'], 9⟩, ⟨['b'], 8⟩]] := by decide
example : wrapOnce [⟨['a'], 1⟩, ⟨['b'], 1⟩] [] = [[⟨['a'], 1⟩], [⟨['b'], 1⟩]] := by decide
example : wrapOnce ([] : List Word) [] = [[]] := by decide
example : get_cursor_position [⟨1, 1⟩, ⟨1, 1⟩, ⟨1, 1⟩] 2 = 2 := by decide
example : get_cursor_position [⟨3, 2⟩, ⟨3, 2⟩, ⟨3, 2⟩] 3 = 2 := by decide
example : get_cursor_position [⟨3, 2⟩, ⟨3, 2⟩, ⟨3, 2⟩] 9 = 6 := by decide
example : get_cursor_position [⟨2, 1⟩] 1 = 1 := by decide
example : title_spans [TitleStyle.Combined ['T'] ['V'], TitleStyle.Single ['S']] true
    = [⟨['[', ' '], false⟩, ⟨['T'], true⟩, ⟨[':', ' ', 'V', ' ', ']'], false⟩,
       ⟨[' ', '[', ' '], false⟩, ⟨['S'], true⟩, ⟨[' ', ']'], false⟩] := by decide

/-! ## C1: prefix matcher -/

/-- C1 counterexample: with candidates `["No", "Nope"]` and search `"No"`, the
first candidate that both starts with the search string and is strictly longer
is `"Nope"` (witnessed by the spec-side `firstSimilaritySpec`), but
`first_similarity` returns `none`: the length test is applied only to the first
candidate that starts with the search string, and `"No"` fails it. -/
theorem first_similarity_c1_counterexample :
    first_similarity [['N','o'], ['N','o','p','e']] ['N','o'] = none ∧
    firstSimilaritySpec [['N','o'], ['N','o','p','e']] ['N','o']
      = some ['N','o','p','e'] := by
  decide

/-- C1 (amended): `first_similarity` returns the first candidate in iteration
order that starts with the search string, and only when that particular
candidate is also strictly longer than the search string; if that first
starts-with candidate is exactly the search string, the result is `none` even
when a later candidate would qualify.  Any returned value is a member of the
candidate list, starts with the search string and is strictly longer than it;
for an empty search string this means the first candidate overall, returned
only if it is non-empty. -/
theorem first_similarity_c1_amended (possibilities : List Str) (search : Str) :
    first_similarity possibilities search
      = (possibilities.find? fun s => search.isPrefixOf s).bind
          (fun result => if result.length > search.length then some result else none) ∧
    ∀ r, first_similarity possibilities search = some r →
      r ∈ possibilities ∧ search.isPrefixOf r = true ∧ search.length < r.length := by
  have hmain : first_similarity possibilities search
      = (possibilities.find? fun s => search.isPrefixOf s).bind
          (fun result => if result.length > search.length then some result else none) := by
    unfold first_similarity
    rw [head?_filter_eq_find?]
  refine ⟨hmain, ?_⟩
  intro r hr
  rw [hmain] at hr
  cases hfind : possibilities.find? fun s => search.isPrefixOf s with
  | none => rw [hfind] at hr; exact Option.noConfusion hr
  | some result =>
      rw [hfind] at hr
      by_cases hlen : result.length > search.length
      · simp [hlen] at hr
        subst hr
        exact ⟨List.mem_of_find?_eq_some hfind, List.find?_some hfind, hlen⟩
      · simp [hlen] at hr

/-! ## Wrapper lemmas -/

theorem sumWidth_append (a b : List Word) : sumWidth (a ++ b) = sumWidth a + sumWidth b := by
  simp [sumWidth]

theorem sumWidth_take_succ (words : List Word) (idx : Nat) (w : Word)
    (h : words.get? idx = some w) :
    sumWidth (words.take (idx + 1)) = sumWidth (words.take idx) + w.width := by
  rw [List.get?_eq_getElem?] at h
  rw [List.take_succ, h]
  simp [sumWidth_append, sumWidth]

/-- The `wrap_once` loop, started with `start = 0` and no emitted lines,
splits at the index found by `firstBreak` (or keeps everything on one line). -/
theorem wrapOnceGo_eq (words : List Word) (lineWidths : List Nat) (dflt : Nat) :
    ∀ (rest : List Word) (idx width : Nat), rest = words.drop idx →
      wrapOnceGo words lineWidths dflt rest idx 0 width []
        = match firstBreak ((lineWidths.get? 0).getD dflt) rest idx width with
          | some i => [words.take i, words.drop i]
          | none => [words] := by
  intro rest
  induction rest with
  | nil =>
      intro idx width h
      simp [wrapOnceGo, firstBreak]
  | cons w rs ih =>
      intro idx width h
      have hrs : rs = words.drop (idx + 1) := by
        have h1 := congrArg (List.drop 1) h
        simpa [List.drop_drop] using h1
      simp only [wrapOnceGo, firstBreak, List.length_nil, List.nil_append]
      by_cases hc : width + w.width > (lineWidths.get? 0).getD dflt ∧ idx > 0
      · rw [if_pos hc, if_pos hc]
        simp
      · rw [if_neg hc, if_neg hc]
        exact ih (idx + 1) (width + w.width) hrs

/-- `wrap_once` in closed form: split at the break index, if any. -/
theorem wrapOnce_eq (words : List Word) (lineWidths : List Nat) :
    wrapOnce words lineWidths
      = match breakIdx words (targetWidth lineWidths) with
        | some i => [words.take i, words.drop i]
        | none => [words] := by
  have h := wrapOnceGo_eq words lineWidths ((lineWidths.getLast?).getD 0)
    words 0 0 (List.drop_zero words).symm
  simpa [wrapOnce, breakIdx, targetWidth] using h

/-- What `firstBreak` finding an index means, relative to the whole list. -/
theorem firstBreak_some_spec (tw : Nat) (words : List Word) :
    ∀ (rest : List Word) (idx width i : Nat),
      rest = words.drop idx → width = sumWidth (words.take idx) →
      firstBreak tw rest idx width = some i →
      idx ≤ i ∧ 0 < i ∧ i < words.length ∧ tw < sumWidth (words.take (i + 1)) ∧
        ∀ j, idx ≤ j → 0 < j → j < i → sumWidth (words.take (j + 1)) ≤ tw := by
  intro rest
  induction rest with
  | nil =>
      intro idx width i h hw hfb
      exact Option.noConfusion hfb
  | cons w rs ih =>
      intro idx width i h hw hfb
      have hidx : words.get? idx = some w := by
        have h0 : (words.drop idx).get? 0 = some w := by rw [← h]; rfl
        rwa [List.get?_drop, Nat.add_zero] at h0
      have hlen : idx < words.length := by
        have hl := congrArg List.length h
        simp [List.length_drop] at hl
        omega
      have hsum : sumWidth (words.take (idx + 1)) = width + w.width := by
        rw [sumWidth_take_succ words idx w hidx, ← hw]
      have hrs : rs = words.drop (idx + 1) := by
        have h1 := congrArg (List.drop 1) h
        simpa [List.drop_drop] using h1
      simp only [firstBreak] at hfb
      by_cases hc : width + w.width > tw ∧ idx > 0
      · rw [if_pos hc] at hfb
        injection hfb with hi
        subst hi
        refine ⟨le_refl _, hc.2, hlen, ?_, ?_⟩
        · rw [hsum]; exact hc.1
        · intro j hj1 hj2 hj3; omega
      · rw [if_neg hc] at hfb
        obtain ⟨h1, h2, h3, h4, h5⟩ := ih (idx + 1) (width + w.width) i hrs hsum.symm hfb
        refine ⟨by omega, h2, h3, h4, ?_⟩
        intro j hj1 hj2 hj3
        rcases Nat.eq_or_lt_of_le hj1 with hji | hji
        · subst hji
          have hnot : ¬ width + w.width > tw := fun hgt => hc ⟨hgt, by omega⟩
          rw [hsum]
          omega
        · exact h5 j (by omega) hj2 hj3

/-- What `firstBreak` finding nothing means: no admissible break point. -/
theorem firstBreak_none_spec (tw : Nat) (words : List Word) :
    ∀ (rest : List Word) (idx width : Nat),
      rest = words.drop idx → width = sumWidth (words.take idx) →
      firstBreak tw rest idx width = none →
      ∀ j, idx ≤ j → 0 < j → j < words.length → sumWidth (words.take (j + 1)) ≤ tw := by
  intro rest
  induction rest with
  | nil =>
      intro idx width h hw hfb j hj1 hj2 hj3
      have hl := congrArg List.length h
      simp [List.length_drop] at hl
      omega
  | cons w rs ih =>
      intro idx width h hw hfb j hj1 hj2 hj3
      have hidx : words.get? idx = some w := by
        have h0 : (words.drop idx).get? 0 = some w := by rw [← h]; rfl
        rwa [List.get?_drop, Nat.add_zero] at h0
      have hsum : sumWidth (words.take (idx + 1)) = width + w.width := by
        rw [sumWidth_take_succ words idx w hidx, ← hw]
      have hrs : rs = words.drop (idx + 1) := by
        have h1 := congrArg (List.drop 1) h
        simpa [List.drop_drop] using h1
      simp only [firstBreak] at hfb
      by_cases hc : width + w.width > tw ∧ idx > 0
      · rw [if_pos hc] at hfb
        exact Option.noConfusion hfb
      · rw [if_neg hc] at hfb
        rcases Nat.eq_or_lt_of_le hj1 with hji | hji
        · subst hji
          have hnot : ¬ width + w.width > tw := fun hgt => hc ⟨hgt, by omega⟩
          rw [hsum]
          omega
        · exact ih (idx + 1) (width + w.width) hrs hsum.symm hfb j (by omega) hj2 hj3

/-! ## C2, C3, C4, C8: first-line wrapper -/

/-- C2: `wrap_once` scans words in order accumulating widths and breaks exactly
at the first word whose added width would exceed the target width, provided at
least one word was already placed (`breakIdx` is that scan); the accumulated
prefix becomes the first group and everything from the breaking word onward the
second, with no further constraint; with no break point the entire input is one
line.  The consulted target width is `line_widths[0]` (no line has been emitted
yet at any lookup), i.e. the head of the width sequence, the last-width
fallback engaging only for the empty sequence, where it yields `0`. -/
theorem wrap_once_c2_first_break (words : List Word) (lineWidths : List Nat) :
    (∀ w ws, lineWidths = w :: ws → targetWidth lineWidths = w) ∧
    (lineWidths = [] → targetWidth lineWidths = 0) ∧
    (breakIdx words (targetWidth lineWidths) = none →
      wrapOnce words lineWidths = [words] ∧
      ∀ j, 0 < j → j < words.length →
        sumWidth (words.take (j + 1)) ≤ targetWidth lineWidths) ∧
    (∀ i, breakIdx words (targetWidth lineWidths) = some i →
      wrapOnce words lineWidths = [words.take i, words.drop i] ∧
      0 < i ∧ i < words.length ∧
      targetWidth lineWidths < sumWidth (words.take (i + 1)) ∧
      ∀ j, 0 < j → j < i → sumWidth (words.take (j + 1)) ≤ targetWidth lineWidths) := by
  refine ⟨?_, ?_, ?_, ?_⟩
  · intro w ws hw; subst hw; rfl
  · intro hw; subst hw; rfl
  · intro hnone
    constructor
    · rw [wrapOnce_eq, hnone]
    · intro j hj1 hj2
      exact firstBreak_none_spec (targetWidth lineWidths) words words 0 0
        (List.drop_zero words).symm (by simp [sumWidth]) hnone j (Nat.zero_le _) hj1 hj2
  · intro i hsome
    obtain ⟨_, h2, h3, h4, h5⟩ := firstBreak_some_spec (targetWidth lineWidths) words
      words 0 0 i (List.drop_zero words).symm (by simp [sumWidth]) hsome
    refine ⟨?_, h2, h3, h4, fun j hj1 hj2 => h5 j (Nat.zero_le _) hj1 hj2⟩
    rw [wrapOnce_eq, hsome]

/-- C8: `wrap_once` always returns one or two groups, their concatenation is
exactly the input word sequence (no word dropped, duplicated or reordered),
and the empty word sequence yields a single empty group. -/
theorem wrap_once_c8_partition :
    (∀ (words : List Word) (lineWidths : List Nat),
      ((wrapOnce words lineWidths).length = 1 ∨ (wrapOnce words lineWidths).length = 2) ∧
      (wrapOnce words lineWidths).flatten = words) ∧
    (∀ lineWidths : List Nat, wrapOnce ([] : List Word) lineWidths = [[]]) := by
  constructor
  · intro words lineWidths
    rw [wrapOnce_eq]
    cases h : breakIdx words (targetWidth lineWidths) with
    | none => simp
    | some i => simp [List.take_append_drop]
  · intro lineWidths
    rw [wrapOnce_eq]
    rfl

/-- C3 counterexample: two words of width 1 with an empty width sequence are
split into two groups, not kept on a single unconstrained line. -/
theorem wrap_once_c3_counterexample :
    wrapOnce [⟨['a'], 1⟩, ⟨['b'], 1⟩] [] = [[⟨['a'], 1⟩], [⟨['b'], 1⟩]] ∧
    wrapOnce [⟨['a'], 1⟩, ⟨['b'], 1⟩] [] ≠ [[⟨['a'], 1⟩, ⟨['b'], 1⟩]] := by
  decide

/-- C3 (amended): with an empty width sequence the consulted target width is
`0`, so `wrap_once` returns a single line with all the words exactly when no
word at index `j ≥ 1` sees a positive accumulated-plus-own width — i.e. only
for lists with fewer than two words or with all-zero relevant widths;
otherwise it breaks there into two groups like for any other target width. -/
theorem wrap_once_c3_amended (words : List Word) :
    targetWidth ([] : List Nat) = 0 ∧
    (wrapOnce words [] = [words] ↔
      ∀ j, 0 < j → j < words.length → sumWidth (words.take (j + 1)) = 0) ∧
    (∀ i, breakIdx words 0 = some i →
      wrapOnce words [] = [words.take i, words.drop i]) := by
  have htw : targetWidth ([] : List Nat) = 0 := rfl
  refine ⟨htw, ?_, ?_⟩
  · constructor
    · intro hone j hj1 hj2
      cases hb : breakIdx words (targetWidth ([] : List Nat)) with
      | none =>
          have := firstBreak_none_spec (targetWidth ([] : List Nat)) words words 0 0
            (List.drop_zero words).symm (by simp [sumWidth]) hb j (Nat.zero_le _) hj1 hj2
          omega
      | some i =>
          exfalso
          rw [wrapOnce_eq, hb] at hone
          exact absurd (congrArg List.length hone) (by simp)
    · intro hall
      rw [wrapOnce_eq]
      cases hb : breakIdx words (targetWidth ([] : List Nat)) with
      | none => rfl
      | some i =>
          exfalso
          obtain ⟨_, h2, h3, h4, _⟩ := firstBreak_some_spec (targetWidth ([] : List Nat))
            words words 0 0 i (List.drop_zero words).symm (by simp [sumWidth]) hb
          have := hall i h2 h3
          rw [htw] at h4
          omega
  · intro i hb
    rw [wrapOnce_eq]
    have hb' : breakIdx words (targetWidth ([] : List Nat)) = some i := hb
    rw [hb']

/-- C4 counterexample: on an empty word sequence (any width sequence, here the
empty one) `wrap_once` returns a single group, not exactly two. -/
theorem wrap_once_c4_counterexample :
    wrapOnce ([] : List Word) ([] : List Nat) = [[]] ∧
    (wrapOnce ([] : List Word) ([] : List Nat)).length ≠ 2 := by
  decide

/-- C4 (amended): `wrap_once` returns one or two groups: exactly two when a
break point exists — the first group being the accumulated prefix, which fits
within the consulted target width whenever it holds more than one word (a lone
over-wide first word is admitted regardless), the second group everything
remaining — and otherwise a single group holding the whole input. -/
theorem wrap_once_c4_amended (words : List Word) (lineWidths : List Nat) :
    1 ≤ (wrapOnce words lineWidths).length ∧ (wrapOnce words lineWidths).length ≤ 2 ∧
    (breakIdx words (targetWidth lineWidths) = none →
      wrapOnce words lineWidths = [words]) ∧
    (∀ i, breakIdx words (targetWidth lineWidths) = some i →
      (wrapOnce words lineWidths).length = 2 ∧
      wrapOnce words lineWidths = [words.take i, words.drop i] ∧
      0 < i ∧ i < words.length ∧
      (1 < i → sumWidth (words.take i) ≤ targetWidth lineWidths)) ∧
    ((wrapOnce words lineWidths).length = 2 →
      ∃ i, 0 < i ∧ i < words.length ∧
        wrapOnce words lineWidths = [words.take i, words.drop i] ∧
        (1 < i → sumWidth (words.take i) ≤ targetWidth lineWidths)) := by
  rw [wrapOnce_eq]
  cases hb : breakIdx words (targetWidth lineWidths) with
  | none =>
      refine ⟨by simp, by simp, fun _ => rfl, fun i hi => absurd hi (by simp),
        fun hlen => absurd hlen (by simp)⟩
  | some i =>
      obtain ⟨_, h2, h3, h4, h5⟩ := firstBreak_some_spec (targetWidth lineWidths) words
        words 0 0 i (List.drop_zero words).symm (by simp [sumWidth]) hb
      have hfit : 1 < i → sumWidth (words.take i) ≤ targetWidth lineWidths := by
        intro hi
        have := h5 (i - 1) (Nat.zero_le _) (by omega) (by omega)
        have hieq : i - 1 + 1 = i := by omega
        rwa [hieq] at this
      refine ⟨by simp, by simp, fun hc => absurd hc (by simp), ?_,
        fun _ => ⟨i, h2, h3, rfl, hfit⟩⟩
      intro j hj
      injection hj with hj
      subst hj
      exact ⟨by simp, rfl, h2, h3, hfit⟩

/-! ## Cursor resolver lemmas -/

theorem le_offset_mem_graphemeIndicesFrom :
    ∀ (buf : List Cluster) (off : Nat) (q : Nat × Cluster),
      q ∈ graphemeIndicesFrom off buf → off ≤ q.1 := by
  intro buf
  induction buf with
  | nil => intro off q hq; simp [graphemeIndicesFrom] at hq
  | cons c cs ih =>
      intro off q hq
      simp only [graphemeIndicesFrom, List.mem_cons] at hq
      rcases hq with hq | hq
      · subst hq; exact le_refl _
      · exact le_trans (Nat.le_add_right off c.byteLen) (ih (off + c.byteLen) q hq)

theorem offset_lt_totalBytes :
    ∀ (buf : List Cluster) (off : Nat), (∀ c ∈ buf, 0 < c.byteLen) →
      ∀ q ∈ graphemeIndicesFrom off buf, q.1 < off + totalBytes buf := by
  intro buf
  induction buf with
  | nil => intro off _ q hq; simp [graphemeIndicesFrom] at hq
  | cons c cs ih =>
      intro off hb q hq
      have hc : 0 < c.byteLen := hb c (List.mem_cons_self c cs)
      have htb : totalBytes (c :: cs) = c.byteLen + totalBytes cs := by simp [totalBytes]
      simp only [graphemeIndicesFrom, List.mem_cons] at hq
      rcases hq with hq | hq
      · subst hq
        show off < off + totalBytes (c :: cs)
        rw [htb]
        omega
      · have := ih (off + c.byteLen) (fun d hd => hb d (List.mem_cons_of_mem c hd)) q hq
        rw [htb]
        omega

/-- On a cursor offset that is a cluster boundary (some cluster's start, or
the total byte length), `take_while (offset != pos)` keeps exactly the
clusters starting strictly before `pos`. -/
theorem takeWhile_boundary :
    ∀ (buf : List Cluster) (off pos : Nat), (∀ c ∈ buf, 0 < c.byteLen) →
      (pos ∈ (graphemeIndicesFrom off buf).map Prod.fst ∨ pos = off + totalBytes buf) →
      (graphemeIndicesFrom off buf).takeWhile (fun q => q.1 != pos)
        = (graphemeIndicesFrom off buf).filter (fun q => decide (q.1 < pos)) := by
  intro buf
  induction buf with
  | nil => intro off pos _ _; rfl
  | cons c cs ih =>
      intro off pos hb hpos
      have hc : 0 < c.byteLen := hb c (List.mem_cons_self c cs)
      have htb : totalBytes (c :: cs) = c.byteLen + totalBytes cs := by simp [totalBytes]
      by_cases hoff : pos = off
      · subst hoff
        have hL : (graphemeIndicesFrom pos (c :: cs)).takeWhile (fun q => q.1 != pos) = [] := by
          simp [graphemeIndicesFrom, List.takeWhile_cons]
        have hR : (graphemeIndicesFrom pos (c :: cs)).filter (fun q => decide (q.1 < pos)) = [] := by
          rw [List.filter_eq_nil_iff]
          intro q hq
          have := le_offset_mem_graphemeIndicesFrom (c :: cs) pos q hq
          simp only [decide_eq_true_eq]
          omega
        rw [hL, hR]
      · have hpos' : pos ∈ (graphemeIndicesFrom (off + c.byteLen) cs).map Prod.fst ∨
            pos = (off + c.byteLen) + totalBytes cs := by
          rcases hpos with hm | he
          · simp only [graphemeIndicesFrom, List.map_cons, List.mem_cons] at hm
            rcases hm with h | h
            · exact absurd h hoff
            · exact Or.inl h
          · right
            rw [he, htb]
            omega
        have hlt : off < pos := by
          rcases hpos' with hm | he
          · obtain ⟨q, hq, hq1⟩ := List.mem_map.mp hm
            have := le_offset_mem_graphemeIndicesFrom cs (off + c.byteLen) q hq
            omega
          · omega
        have hne : off ≠ pos := fun hh => hoff hh.symm
        simp only [graphemeIndicesFrom, List.takeWhile_cons, List.filter_cons]
        simp only [bne_iff_ne, ne_eq, decide_eq_true_eq]
        rw [if_pos hne, if_pos hlt]
        rw [ih (off + c.byteLen) pos (fun d hd => hb d (List.mem_cons_of_mem c hd)) hpos']

theorem map_width_graphemeIndicesFrom :
    ∀ (buf : List Cluster) (off : Nat),
      ((graphemeIndicesFrom off buf).map fun q => q.2.width) = buf.map Cluster.width := by
  intro buf
  induction buf with
  | nil => intro off; rfl
  | cons c cs ih => intro off; simp [graphemeIndicesFrom, ih]

/-- `get_cursor_position` at a boundary offset is the width sum over the
clusters starting strictly before the cursor. -/
theorem get_cursor_position_boundary (buf : List Cluster) (pos : Nat)
    (hb : ∀ c ∈ buf, 0 < c.byteLen)
    (hpos : pos ∈ (graphemeIndicesFrom 0 buf).map Prod.fst ∨ pos = totalBytes buf) :
    get_cursor_position buf pos
      = (((graphemeIndicesFrom 0 buf).filter fun q => decide (q.1 < pos)).map
          fun q => q.2.width).sum := by
  unfold get_cursor_position
  rw [takeWhile_boundary buf 0 pos hb (by simpa using hpos)]

/-! ## C5, C7, C9: cursor position resolver -/

/-- C5: for a buffer (with non-empty grapheme clusters, as real segmentation
produces) and a cursor offset that is a valid cluster boundary — the start
offset of some cluster or the total byte length — `get_cursor_position`
returns the sum of the display widths of exactly the clusters whose start
offset is strictly before the cursor; at the end-of-string offset it is the
sum over all clusters. -/
theorem get_cursor_position_c5_prefix_sum (buf : List Cluster) (pos : Nat)
    (hb : ∀ c ∈ buf, 0 < c.byteLen)
    (hpos : pos ∈ (graphemeIndicesFrom 0 buf).map Prod.fst ∨ pos = totalBytes buf) :
    get_cursor_position buf pos
      = (((graphemeIndicesFrom 0 buf).filter fun q => decide (q.1 < pos)).map
          fun q => q.2.width).sum ∧
    (pos = totalBytes buf → get_cursor_position buf pos = totalWidth buf) := by
  refine ⟨get_cursor_position_boundary buf pos hb hpos, ?_⟩
  intro hend
  unfold get_cursor_position
  have hall : ∀ q ∈ graphemeIndicesFrom 0 buf, (q.1 != pos) = true := by
    intro q hq
    have := offset_lt_totalBytes buf 0 hb q hq
    rw [bne_iff_ne]
    omega
  rw [List.takeWhile_eq_self_iff.mpr hall, map_width_graphemeIndicesFrom]
  rfl

/-- C5 witness: a two-cluster CJK-style buffer (3 bytes, width 2 each) with
the cursor at the second cluster's start offset. -/
theorem get_cursor_position_c5_witness :
    (∀ c ∈ [(⟨3, 2⟩ : Cluster), ⟨3, 2⟩], 0 < c.byteLen) ∧
    (3 ∈ (graphemeIndicesFrom 0 [(⟨3, 2⟩ : Cluster), ⟨3, 2⟩]).map Prod.fst ∨
      3 = totalBytes [(⟨3, 2⟩ : Cluster), ⟨3, 2⟩]) ∧
    (get_cursor_position [(⟨3, 2⟩ : Cluster), ⟨3, 2⟩] 3
        = (((graphemeIndicesFrom 0 [(⟨3, 2⟩ : Cluster), ⟨3, 2⟩]).filter
            fun q => decide (q.1 < 3)).map fun q => q.2.width).sum ∧
      (3 = totalBytes [(⟨3, 2⟩ : Cluster), ⟨3, 2⟩] →
        get_cursor_position [(⟨3, 2⟩ : Cluster), ⟨3, 2⟩] 3
          = totalWidth [(⟨3, 2⟩ : Cluster), ⟨3, 2⟩])) :=
  ⟨by decide, by decide,
    get_cursor_position_c5_prefix_sum [(⟨3, 2⟩ : Cluster), ⟨3, 2⟩] 3 (by decide) (by decide)⟩

/-- C7: on valid boundary offsets the resolved column is monotonically
non-decreasing in the cursor offset. -/
theorem get_cursor_position_c7_monotone (buf : List Cluster) (p1 p2 : Nat)
    (hb : ∀ c ∈ buf, 0 < c.byteLen)
    (h1 : p1 ∈ (graphemeIndicesFrom 0 buf).map Prod.fst ∨ p1 = totalBytes buf)
    (h2 : p2 ∈ (graphemeIndicesFrom 0 buf).map Prod.fst ∨ p2 = totalBytes buf)
    (hle : p1 ≤ p2) :
    get_cursor_position buf p1 ≤ get_cursor_position buf p2 := by
  rw [get_cursor_position_boundary buf p1 hb h1,
      get_cursor_position_boundary buf p2 hb h2]
  have hsub : ((graphemeIndicesFrom 0 buf).filter fun q => decide (q.1 < p1)).Sublist
      ((graphemeIndicesFrom 0 buf).filter fun q => decide (q.1 < p2)) := by
    apply List.monotone_filter_right
    intro q hq
    simp only [decide_eq_true_eq] at hq ⊢
    omega
  exact List.Sublist.sum_le_sum (hsub.map _) (fun a _ => Nat.zero_le a)

/-- C7 witness: boundary offsets 1 and 3 of a two-cluster buffer. -/
theorem get_cursor_position_c7_witness :
    (∀ c ∈ [(⟨1, 1⟩ : Cluster), ⟨2, 2⟩], 0 < c.byteLen) ∧
    (1 ∈ (graphemeIndicesFrom 0 [(⟨1, 1⟩ : Cluster), ⟨2, 2⟩]).map Prod.fst ∨
      1 = totalBytes [(⟨1, 1⟩ : Cluster), ⟨2, 2⟩]) ∧
    (3 ∈ (graphemeIndicesFrom 0 [(⟨1, 1⟩ : Cluster), ⟨2, 2⟩]).map Prod.fst ∨
      3 = totalBytes [(⟨1, 1⟩ : Cluster), ⟨2, 2⟩]) ∧
    1 ≤ 3 ∧
    get_cursor_position [(⟨1, 1⟩ : Cluster), ⟨2, 2⟩] 1
      ≤ get_cursor_position [(⟨1, 1⟩ : Cluster), ⟨2, 2⟩] 3 :=
  ⟨by decide, by decide, by decide, by decide,
    get_cursor_position_c7_monotone [(⟨1, 1⟩ : Cluster), ⟨2, 2⟩] 1 3
      (by decide) (by decide) (by decide) (by decide)⟩

/-- C9: `get_cursor_position` is total (it is a Lean function on all inputs),
and on any cursor offset that is not the start offset of any cluster — a
mid-cluster offset, the end-of-string offset, or an offset past the end — it
returns the total display width of the whole buffer, since the scan's
`take_while (offset != pos)` never stops. -/
theorem get_cursor_position_c9_total (buf : List Cluster) (pos : Nat)
    (h : ∀ q ∈ graphemeIndicesFrom 0 buf, q.1 ≠ pos) :
    get_cursor_position buf pos = totalWidth buf := by
  unfold get_cursor_position
  have hall : ∀ q ∈ graphemeIndicesFrom 0 buf, (q.1 != pos) = true := fun q hq =>
    bne_iff_ne.mpr (h q hq)
  rw [List.takeWhile_eq_self_iff.mpr hall, map_width_graphemeIndicesFrom]
  rfl

/-- C9 witness: a mid-cluster offset (byte 1 inside a 2-byte cluster). -/
theorem get_cursor_position_c9_witness :
    (∀ q ∈ graphemeIndicesFrom 0 [(⟨2, 1⟩ : Cluster)], q.1 ≠ 1) ∧
    get_cursor_position [(⟨2, 1⟩ : Cluster)] 1 = totalWidth [(⟨2, 1⟩ : Cluster)] :=
  ⟨by decide, get_cursor_position_c9_total [(⟨2, 1⟩ : Cluster)] 1 (by decide)⟩

/-! ## Title composer lemmas -/

theorem titleSpansItem_length {σ : Type} [Inhabited σ] (style : σ) (i : Nat)
    (item : TitleStyle σ) : (titleSpansItem style i item).length = 3 := by
  cases item <;> rfl

theorem titleSpansItem_get_zero {σ : Type} [Inhabited σ] (style : σ) (i : Nat)
    (item : TitleStyle σ) : (titleSpansItem style i item).get? 0 = some (firstBracket i) := by
  cases item <;> rfl

theorem firstBracket_eq {σ : Type} [Inhabited σ] (k : Nat) :
    (firstBracket k : Span σ)
      = Span.raw (if k = 0 then ['[', ' '] else [' ', '[', ' ']) := by
  cases k <;> rfl

theorem titleSpansGo_length {σ : Type} [Inhabited σ] (style : σ) :
    ∀ (contents : List (TitleStyle σ)) (i : Nat),
      (titleSpansGo style i contents).length = 3 * contents.length := by
  intro contents
  induction contents with
  | nil => intro i; rfl
  | cons item rest ih =>
      intro i
      simp only [titleSpansGo, List.length_append, titleSpansItem_length, ih, List.length_cons]
      ring

/-- The span at flat index `3 * k + m` (`m < 3`) is span `m` of the three
spans contributed by the `k`-th segment, whose bracket carries the absolute
enumeration index. -/
theorem titleSpansGo_get {σ : Type} [Inhabited σ] (style : σ) :
    ∀ (contents : List (TitleStyle σ)) (k i : Nat) (item : TitleStyle σ),
      contents.get? k = some item → ∀ m, m < 3 →
      (titleSpansGo style i contents).get? (3 * k + m)
        = (titleSpansItem style (i + k) item).get? m := by
  intro contents
  induction contents with
  | nil => intro k i item h m hm; exact Option.noConfusion h
  | cons it rest ih =>
      intro k i item h m hm
      cases k with
      | zero =>
          rw [List.get?_cons_zero] at h
          injection h with h
          subst h
          simp only [titleSpansGo, Nat.mul_zero, Nat.zero_add, Nat.add_zero]
          rw [List.get?_append (by rw [titleSpansItem_length]; exact hm)]
      | succ k =>
          rw [List.get?_cons_succ] at h
          simp only [titleSpansGo]
          rw [List.get?_append_right (by rw [titleSpansItem_length]; omega)]
          have harith : 3 * (k + 1) + m - (titleSpansItem style i it).length = 3 * k + m := by
            rw [titleSpansItem_length]; omega
          rw [harith]
          have hik : i + 1 + k = i + (k + 1) := by omega
          rw [← hik]
          exact ih k (i + 1) item h m hm

/-! ## C6, C10: title span composer -/

/-- C6: per segment and in input order, `title_spans` emits exactly three
spans at indices `3k`, `3k+1`, `3k+2`: an opening fragment (`"[ "` for the
first segment, `" [ "` for every later one); then for a label+value segment
the label styled with the emphasis style followed by the unstyled literal
`": <value> ]"`, for a bare-value segment the value styled with the emphasis
style followed by `" ]"`, and for a custom segment the caller's span
unchanged followed by `" ]"`. -/
theorem title_spans_c6_segments {σ : Type} [Inhabited σ]
    (contents : List (TitleStyle σ)) (style : σ) (k : Nat) (h : k < contents.length) :
    (title_spans contents style).get? (3 * k)
        = some (Span.raw (if k = 0 then ['[', ' '] else [' ', '[', ' '])) ∧
    (∀ t v, contents.get? k = some (TitleStyle.Combined t v) →
      (title_spans contents style).get? (3 * k + 1) = some (Span.styled t style) ∧
      (title_spans contents style).get? (3 * k + 2)
        = some (Span.raw ([':', ' '] ++ v ++ [' ', ']']))) ∧
    (∀ v, contents.get? k = some (TitleStyle.Single v) →
      (title_spans contents style).get? (3 * k + 1) = some (Span.styled v style) ∧
      (title_spans contents style).get? (3 * k + 2) = some (Span.raw [' ', ']'])) ∧
    (∀ s, contents.get? k = some (TitleStyle.Custom s) →
      (title_spans contents style).get? (3 * k + 1) = some s ∧
      (title_spans contents style).get? (3 * k + 2) = some (Span.raw [' ', ']'])) := by
  refine ⟨?_, ?_, ?_, ?_⟩
  · have hk := List.get?_eq_get h
    have h0 := titleSpansGo_get style contents k 0 (contents.get ⟨k, h⟩) hk 0 (by omega)
    rw [Nat.add_zero] at h0
    simp only [title_spans]
    rw [h0, titleSpansItem_get_zero, Nat.zero_add, firstBracket_eq]
  · intro t v hcv
    have h1 := titleSpansGo_get style contents k 0 _ hcv 1 (by omega)
    have h2 := titleSpansGo_get style contents k 0 _ hcv 2 (by omega)
    exact ⟨by simp only [title_spans]; rw [h1]; rfl,
           by simp only [title_spans]; rw [h2]; rfl⟩
  · intro v hcv
    have h1 := titleSpansGo_get style contents k 0 _ hcv 1 (by omega)
    have h2 := titleSpansGo_get style contents k 0 _ hcv 2 (by omega)
    exact ⟨by simp only [title_spans]; rw [h1]; rfl,
           by simp only [title_spans]; rw [h2]; rfl⟩
  · intro s hcv
    have h1 := titleSpansGo_get style contents k 0 _ hcv 1 (by omega)
    have h2 := titleSpansGo_get style contents k 0 _ hcv 2 (by omega)
    exact ⟨by simp only [title_spans]; rw [h1]; rfl,
           by simp only [title_spans]; rw [h2]; rfl⟩

/-- C6 witness: the second segment (`k = 1`, a bare value) of a two-segment
title over the Boolean style type. -/
theorem title_spans_c6_witness :
    1 < ([TitleStyle.Combined ['T'] ['V'], TitleStyle.Single ['S']]
          : List (TitleStyle Bool)).length ∧
    ((title_spans ([TitleStyle.Combined ['T'] ['V'], TitleStyle.Single ['S']]
            : List (TitleStyle Bool)) true).get? (3 * 1)
        = some (Span.raw (if 1 = 0 then ['[', ' '] else [' ', '[', ' '])) ∧
      (∀ t v, ([TitleStyle.Combined ['T'] ['V'], TitleStyle.Single ['S']]
            : List (TitleStyle Bool)).get? 1 = some (TitleStyle.Combined t v) →
        (title_spans ([TitleStyle.Combined ['T'] ['V'], TitleStyle.Single ['S']]
            : List (TitleStyle Bool)) true).get? (3 * 1 + 1) = some (Span.styled t true) ∧
        (title_spans ([TitleStyle.Combined ['T'] ['V'], TitleStyle.Single ['S']]
            : List (TitleStyle Bool)) true).get? (3 * 1 + 2)
          = some (Span.raw ([':', ' '] ++ v ++ [' ', ']']))) ∧
      (∀ v, ([TitleStyle.Combined ['T'] ['V'], TitleStyle.Single ['S']]
            : List (TitleStyle Bool)).get? 1 = some (TitleStyle.Single v) →
        (title_spans ([TitleStyle.Combined ['T'] ['V'], TitleStyle.Single ['S']]
            : List (TitleStyle Bool)) true).get? (3 * 1 + 1) = some (Span.styled v true) ∧
        (title_spans ([TitleStyle.Combined ['T'] ['V'], TitleStyle.Single ['S']]
            : List (TitleStyle Bool)) true).get? (3 * 1 + 2) = some (Span.raw [' ', ']'])) ∧
      (∀ s, ([TitleStyle.Combined ['T'] ['V'], TitleStyle.Single ['S']]
            : List (TitleStyle Bool)).get? 1 = some (TitleStyle.Custom s) →
        (title_spans ([TitleStyle.Combined ['T'] ['V'], TitleStyle.Single ['S']]
            : List (TitleStyle Bool)) true).get? (3 * 1 + 1) = some s ∧
        (title_spans ([TitleStyle.Combined ['T'] ['V'], TitleStyle.Single ['S']]
            : List (TitleStyle Bool)) true).get? (3 * 1 + 2) = some (Span.raw [' ', ']']))) :=
  ⟨by decide,
    title_spans_c6_segments ([TitleStyle.Combined ['T'] ['V'], TitleStyle.Single ['S']]
      : List (TitleStyle Bool)) true 1 (by decide)⟩

/-- C10: `title_spans` emits exactly three spans per input segment, of any
shape, so the output length is three times the segment count; an empty
segment sequence yields an empty span list. -/
theorem title_spans_c10_length {σ : Type} [Inhabited σ] :
    (∀ (contents : List (TitleStyle σ)) (style : σ),
      (title_spans contents style).length = 3 * contents.length) ∧
    (∀ style : σ, title_spans ([] : List (TitleStyle σ)) style = []) := by
  constructor
  · intro contents style
    exact titleSpansGo_length style contents 0
  · intro style
    rfl
